import Mathlib

/-!
Verification of the PawnForge engine-orchestration server (`server.js`).

The development shallow-embeds the pure/deterministic cores of the server:
the move-quality classifier `classify`, the `LRUCache`, the opening book and
`detectOpening`, the per-worker `waitFor` line matcher, the promise-chain
command queue of `EngineWorker.run`, the score-extraction loop of
`EnginePool.evaluateMove`, the SSE all-moves pipeline of the
`/api/analyze/all-moves` handler, and the per-ply delta computation of the
`/api/analyze/game` handler.

Engine interaction is modelled by oracles: `pool.analyzePosition(...).bestEvalCp`
becomes a function `bestEval : String -> Int` from FEN strings to centipawn
scores, and `pool.evaluateMove(fen, move, movetime)` becomes a function
`rawEval : String -> Int` from UCI move strings to the score the engine search
reports.  JavaScript `Map` iteration order (insertion order, with delete +
re-insert moving a key to the end) is modelled by an association list whose
head is the oldest entry.  Wall-clock time is passed explicitly as an integer
of milliseconds.
-/

namespace PawnForge

/-- A move-quality category as built by `classify` in `server.js`
(an object with `key`, `label` and `color` fields). -/
structure Category where
  key : String
  label : String
  color : String
deriving DecidableEq, Repr

def bestCat : Category := ⟨"best", "Best", "blue"⟩

def goodCat : Category := ⟨"good", "Good", "green"⟩

def inaccuracyCat : Category := ⟨"inaccuracy", "Inaccuracy", "orange"⟩

def mistakeCat : Category := ⟨"mistake", "Mistake", "red"⟩

def blunderCat : Category := ⟨"blunder", "Blunder", "red-strong"⟩

/-- `classify(deltaCp)` from `server.js` (lines 515-521): a chain of
`if (deltaCp <= k)` threshold tests. -/
def classify (deltaCp : Int) : Category :=
  if deltaCp ≤ 20 then bestCat
  else if deltaCp ≤ 60 then goodCat
  else if deltaCp ≤ 150 then inaccuracyCat
  else if deltaCp ≤ 300 then mistakeCat
  else blunderCat

/-- A cache entry as stored by `LRUCache` in `server.js`:
`{ value, timestamp }` with `timestamp = Date.now()` at insertion. -/
structure Entry (α : Type) where
  value : α
  timestamp : Int
deriving DecidableEq, Repr

/-- The `LRUCache` state (`server.js` lines 386-417).  The JavaScript `Map`
is modelled as an association list in insertion order: the head is the
oldest-touched entry (`this.cache.keys().next().value`), appending models
`Map.set` of a fresh key, and delete-then-append models the recency refresh.
Keys are generalised from strings to any decidable-equality type. -/
structure LRUCache (κ : Type) (α : Type) [DecidableEq κ] where
  maxSize : Nat
  ttlMs : Int
  cache : List (κ × Entry α)
deriving Repr

variable {κ α : Type} [DecidableEq κ]

/-- `Map.get`: the entry stored under `k`, if any. -/
def mapLookup (k : κ) : List (κ × Entry α) → Option (Entry α)
  | [] => none
  | (k2, e) :: rest => if k2 = k then some e else mapLookup k rest

/-- `Map.delete(k)`: remove the binding for `k` (a `Map` holds at most one). -/
def mapErase (k : κ) (l : List (κ × Entry α)) : List (κ × Entry α) :=
  l.filter (fun p => p.1 ≠ k)

/-- `Map.has(k)` on the raw backing map (not TTL-aware). -/
def mapHas (k : κ) (l : List (κ × Entry α)) : Bool :=
  l.any (fun p => p.1 = k)

/-- `LRUCache.get(key)` at wall-clock time `now` (`server.js` lines 393-403):
a hit older than `ttlMs` is deleted and reported absent; a live hit is
re-inserted at the most-recently-used end and its value returned.
Returns the updated cache together with the result. -/
def LRUCache.get (c : LRUCache κ α) (now : Int) (key : κ) :
    LRUCache κ α × Option α :=
  match mapLookup key c.cache with
  | none => (c, none)
  | some entry =>
    if now - entry.timestamp > c.ttlMs then
      ({ c with cache := mapErase key c.cache }, none)
    else
      ({ c with cache := mapErase key c.cache ++ [(key, entry)] }, some entry.value)

/-- `LRUCache.set(key, value)` at wall-clock time `now` (`server.js` lines
405-412): when the map is at capacity and the key is new, the first
(oldest-touched) entry is deleted; then the key is (re)bound at the
most-recently-used end with a fresh timestamp. -/
def LRUCache.set (c : LRUCache κ α) (now : Int) (key : κ) (v : α) :
    LRUCache κ α :=
  let base :=
    if c.cache.length ≥ c.maxSize ∧ ¬ mapHas key c.cache then
      c.cache.drop 1
    else
      c.cache
  { c with cache := mapErase key base ++ [(key, Entry.mk v now)] }

/-- The cache constructed by `new LRUCache()`: `maxSize = 500`,
`ttlMs = 3600000` (one hour), empty map. -/
def LRUCache.empty (κ α : Type) [DecidableEq κ] : LRUCache κ α :=
  ⟨500, 3600000, []⟩

/-! ### EngineWorker.waitFor (`server.js` lines 619-645)

`waitFor(predicate, timeoutMs)` scans `this.lines` with
`findIndex(predicate)`; on a match at index `idx` it keeps
`this.lines.slice(idx + 1)` and returns the matched line; otherwise it
suspends until more output arrives or the deadline passes, then rescans.
The pure scan over the buffer is `waitForScan`; the suspension loop is
modelled by `waitForRun`, which receives the finite list of line batches
that arrive before the deadline (an empty remainder means the timeout
fires with no further data). -/

/-- One scan of the buffered lines: `findIndex` + `slice(idx + 1)`. -/
def waitForScan (p : String → Bool) (lines : List String) :
    Option (String × List String) :=
  match lines.findIdx? p with
  | some idx => some (lines.getD idx "", lines.drop (idx + 1))
  | none => none

/-- The `waitFor` loop: scan, and on failure wait for the next batch of
arriving lines (appended to the buffer by the stdout handler); if no batch
arrives before the deadline the call rejects with `Engine timeout`. -/
def waitForRun (p : String → Bool) :
    List String → List (List String) → Except String (String × List String)
  | lines, [] =>
    match waitForScan p lines with
    | some r => Except.ok r
    | none => Except.error "Engine timeout"
  | lines, batch :: rest =>
    match waitForScan p lines with
    | some r => Except.ok r
    | none => waitForRun p (lines ++ batch) rest

/-! ### EngineWorker.run (`server.js` lines 654-660)

`run(task)` reassigns `this.queue = this.queue.then(async () => {...})`
and returns the new promise.  A JavaScript `then` with no rejection
handler skips its callback when the chain is rejected and propagates the
rejection.  A task is modelled by its outcome (`Except E Unit`), the chain
by the settled state of `this.queue`, and each submission produces the pair
(was the task's callback run?, what the caller of `run` observes). -/

/-- Submit a list of task outcomes to one worker's queue in order, starting
from chain state `st`.  For each task: if the chain is fulfilled the task
body runs and the chain becomes the task's outcome; if the chain is
rejected the body is skipped and the rejection propagates to this caller. -/
def runQueue {E : Type} : Except E Unit → List (Except E Unit) →
    List (Bool × Except E Unit)
  | _, [] => []
  | Except.ok _, t :: ts => (true, t) :: runQueue t ts
  | Except.error e, _ :: ts =>
    (false, Except.error e) :: runQueue (Except.error e) ts

/-- Submissions to a fresh worker: the chain starts from
`Promise.resolve()` (fulfilled). -/
def submitAll {E : Type} (tasks : List (Except E Unit)) :
    List (Bool × Except E Unit) :=
  runQueue (Except.ok ()) tasks

/-! ### EnginePool.evaluateMove (`server.js` lines 733-748)

The loop reads engine output lines until one starts with `bestmove`,
updating `score` on every line matching `/score (cp|mate) (-?\d+)/`
(`mate n` becomes `±100000` by the sign of `n`), and returns the last
`score` seen.  Output lines are modelled already parsed: a line either
starts with `bestmove`, carries a score report, or is anything else. -/

inductive ScoreKind where
  | cp
  | mate
deriving DecidableEq, Repr

/-- One engine output line, as seen by the `evaluateMove` loop. -/
inductive EngineLine where
  | bestmove (rest : String)
  | scoreMsg (kind : ScoreKind) (value : Int)
  | other (raw : String)
deriving DecidableEq, Repr

/-- Centipawn value of one score report:
`m[1] === 'cp' ? Number(m[2]) : Number(m[2]) > 0 ? 100000 : -100000`. -/
def scoreOf (k : ScoreKind) (v : Int) : Int :=
  match k with
  | ScoreKind.cp => v
  | ScoreKind.mate => if v > 0 then 100000 else -100000

/-- The `evaluateMove` read loop with accumulator `score` (initially 0):
stop at the first `bestmove` line, update on score reports, skip the rest.
An exhausted output list models the (never-completing) timeout path and
returns `none`. -/
def evaluateMoveLoop (score : Int) : List EngineLine → Option Int
  | [] => none
  | EngineLine.bestmove _ :: _ => some score
  | EngineLine.scoreMsg k v :: rest => evaluateMoveLoop (scoreOf k v) rest
  | EngineLine.other _ :: rest => evaluateMoveLoop score rest

/-- `EnginePool.evaluateMove` applied to the engine output it will consume:
the score it resolves with, or `none` when no `bestmove` line arrives. -/
def evaluateMove (output : List EngineLine) : Option Int :=
  evaluateMoveLoop 0 output

/-- Is this line a `bestmove` terminator? -/
def isBestmoveLine : EngineLine → Bool
  | EngineLine.bestmove _ => true
  | _ => false

/-- The centipawn value a line's score report carries, if any. -/
def scoreLineVal : EngineLine → Option Int
  | EngineLine.scoreMsg k v => some (scoreOf k v)
  | _ => none

/-- Reference reading of the same output, written from the protocol's
description: if a `bestmove` line occurs, the result is the last score
report strictly before the first `bestmove` line (0 when there is none),
expressed in centipawns; otherwise the exchange never completes. -/
def reportedScore (output : List EngineLine) : Option Int :=
  if output.any isBestmoveLine then
    some ((((output.takeWhile (fun l => ! isBestmoveLine l)).filterMap
        scoreLineVal).getLast?).getD 0)
  else none

/-! ### The all-moves SSE pipeline (`server.js` lines 837-856)

The handler enumerates the legal moves, evaluates each with
`pool.evaluateMove`, negates the score (`evalCp: -evalCp`), pushes the row
and writes one `partial` SSE event with `progress: (i + 1) / legal.length`;
afterwards it sorts the rows with `(a, b) => b.evalCp - a.evalCp`
(JavaScript's stable sort, descending by `evalCp`), takes
`bestEvalCp = rows[0]?.evalCp ?? 0`, annotates every row with
`deltaCp = Math.max(0, bestEvalCp - r.evalCp)` and `classify(deltaCp)`,
and writes one `final` event.  The engine is abstracted by
`rawEval : String -> Int`, the score `pool.evaluateMove(fen, move, movetime)`
resolves with for each move; the float `progress` is modelled as a rational,
exact for these small integer ratios. -/

/-- A row pushed by the all-moves loop: `{ uci: move, evalCp: -evalCp }`. -/
structure Row where
  uci : String
  evalCp : Int
deriving DecidableEq, Repr

/-- A row of the final event, after delta annotation and classification. -/
structure AnnotatedRow where
  uci : String
  evalCp : Int
  deltaCp : Int
  category : Category
deriving DecidableEq, Repr

/-- The payload of the terminal `final` SSE event. -/
structure AllMovesResult where
  fen : String
  moves : List AnnotatedRow
  bestEvalCp : Int
  legalMoveCount : Nat
deriving DecidableEq, Repr

/-- One server-sent event of the all-moves stream: either a
`type: 'partial'` progress event or the one `type: 'final'` event. -/
inductive SseEvent where
  | progressEv (progress : ℚ) (row : Row)
  | finalEv (result : AllMovesResult)
deriving DecidableEq, Repr

/-- The evaluation loop (`for (let i = 0; ...)`, no client disconnect):
builds the `rows` array and the per-move `partial` events, where `total`
is `legal.length` and `i` the current index. -/
def allMovesLoop (rawEval : String → Int) (total : Nat) :
    List String → Nat → List Row × List SseEvent
  | [], _ => ([], [])
  | move :: rest, i =>
    let row : Row := ⟨move, -(rawEval move)⟩
    let next := allMovesLoop rawEval total rest (i + 1)
    (row :: next.1,
      SseEvent.progressEv (((i : ℚ) + 1) / (total : ℚ)) row :: next.2)

/-- The comparator `(a, b) => b.evalCp - a.evalCp` read as a "keep `a`
before `b`" test: true when the comparator is ≤ 0. -/
def rowLE (a b : Row) : Bool := b.evalCp ≤ a.evalCp

/-- `rows.sort((a, b) => b.evalCp - a.evalCp)`: stable, descending by
`evalCp`. -/
def sortRows (rows : List Row) : List Row :=
  rows.mergeSort rowLE

/-- The sorted rows of one all-moves request. -/
def allMovesSorted (rawEval : String → Int) (legal : List String) : List Row :=
  sortRows (allMovesLoop rawEval legal.length legal 0).1

/-- `bestEvalCp = rows[0]?.evalCp ?? 0` after sorting. -/
def allMovesBest (rawEval : String → Int) (legal : List String) : Int :=
  (((allMovesSorted rawEval legal).head?).map Row.evalCp).getD 0

/-- The annotated, sorted move list of the `final` event. -/
def allMovesFinalRows (rawEval : String → Int) (legal : List String) :
    List AnnotatedRow :=
  (allMovesSorted rawEval legal).map fun r =>
    let deltaCp := max 0 (allMovesBest rawEval legal - r.evalCp)
    AnnotatedRow.mk r.uci r.evalCp deltaCp (classify deltaCp)

/-- The payload of the `final` event. -/
def allMovesFinal (rawEval : String → Int) (fen : String)
    (legal : List String) : AllMovesResult :=
  ⟨fen, allMovesFinalRows rawEval legal, allMovesBest rawEval legal,
    (allMovesFinalRows rawEval legal).length⟩

/-- The whole event stream the handler writes for one request (absent
client disconnection): all `partial` events followed by the one `final`
event. -/
def allMovesEvents (rawEval : String → Int) (fen : String)
    (legal : List String) : List SseEvent :=
  (allMovesLoop rawEval legal.length legal 0).2
    ++ [SseEvent.finalEv (allMovesFinal rawEval fen legal)]

/-! ### The game-review pipeline (`server.js` lines 860-909)

For each index `i` of `fenSequence` the handler analyzes
`fenSequence[i]` (giving `evalAfterMove`), and when `i > 0` and
`preMoveSequence[i]` is truthy also analyzes `preMoveSequence[i]` and sets
`deltaCp = Math.max(0, bestBeforeMove + evalAfterMove)`; otherwise
`deltaCp` stays 0.  `pool.analyzePosition(...).bestEvalCp` is abstracted
by `bestEval : String -> Int` on FEN strings.  A missing index
(`undefined`) and an empty string are both falsy, so presence is the test
`preSeq.getD i "" ≠ ""`. -/

/-- One element of the `plies` array built by the handler. -/
structure PlyReview where
  ply : Nat
  san : String
  fen : String
  evalCp : Int
  deltaCp : Int
  category : Category
deriving DecidableEq, Repr

/-- The loop body of the game-review handler at index `i`: one entry of
the `plies` array.  `san` is `moves[i] || 'ply-' + (i+1)` (a missing or
empty token is falsy). -/
def reviewPly (bestEval : String → Int) (moves fenSeq preSeq : List String)
    (i : Nat) : PlyReview :=
  let fen := fenSeq.getD i ""
  let evalAfterMove := bestEval fen
  let deltaCp :=
    if 0 < i ∧ preSeq.getD i "" ≠ "" then
      max 0 (bestEval (preSeq.getD i "") + evalAfterMove)
    else 0
  let sanTok := moves.getD i ""
  { ply := i + 1
    san := if sanTok = "" then "ply-" ++ toString (i + 1) else sanTok
    fen := fen
    evalCp := evalAfterMove
    deltaCp := deltaCp
    category := classify deltaCp }

/-- The `plies` array: one entry per element of `fenSequence`, in order. -/
def analyzeGamePlies (bestEval : String → Int) (moves fenSeq preSeq : List String) :
    List PlyReview :=
  (List.range fenSeq.length).map (reviewPly bestEval moves fenSeq preSeq)

/-- `plies.filter((p) => p.deltaCp >= 150)`. -/
def turningPointsOf (plies : List PlyReview) : List PlyReview :=
  plies.filter (fun p => p.deltaCp ≥ 150)

/-! ### Opening detection (`server.js` lines 422-587)

`detectOpening(moveList)` scans the static `openingBook`, keeping the
entry whose `line` matches the front of `moveList`
(`item.line.every((m, i) => moveList[i] === m)`) with strictly greater
length than the best so far; with no match it falls back to
`A00 / Uncommon Opening` with `bookPlyRange [1, Math.min(8,
moveList.length || 8)]`.  `findContinuations` collects, for book entries
strictly extending `moveList`, the first next move per distinct token. -/

/-- One static entry of the `openingBook` array. -/
structure OpeningEntry where
  line : List String
  eco : String
  name : String
deriving DecidableEq, Repr

/-- One continuation suggestion built by `findContinuations`. -/
structure Continuation where
  move : String
  name : String
  eco : String
deriving DecidableEq, Repr

/-- What `detectOpening` returns (`bookPlyRange` as a start/end pair). -/
structure OpeningResult where
  eco : String
  name : String
  bookPlyRange : Nat × Nat
  continuations : List Continuation
deriving DecidableEq, Repr

/-- `item.line.every((m, i) => moveList[i] === m)`: every move of `line`
equals the move of `moveList` at the same index (an out-of-range index
yields `undefined`, which never equals a string). -/
def lineMatches : List String → List String → Bool
  | [], _ => true
  | _ :: _, [] => false
  | m :: ms, x :: xs => m == x && lineMatches ms xs

/-- The `for (const item of openingBook)` loop of `detectOpening`, carrying
`(bestMatch, bestLength)` (initially `(null, 0)`); an item replaces the
accumulator when it matches and its line is strictly longer. -/
def detectScan (moves : List String) :
    List OpeningEntry → Option OpeningEntry × Nat → Option OpeningEntry × Nat
  | [], acc => acc
  | item :: rest, acc =>
    detectScan moves rest
      (if lineMatches item.line moves && decide (item.line.length > acc.2) then
        (some item, item.line.length)
      else acc)

/-- The `findContinuations` loop, carrying the `seen` set and the output
array: a book entry strictly longer than `moveList` whose front equals
`moveList` contributes its next move, first-seen entry winning per move. -/
def continuationsScan (moves : List String) :
    List OpeningEntry → List String × List Continuation →
    List String × List Continuation
  | [], acc => acc
  | item :: rest, acc =>
    continuationsScan moves rest
      (if decide (item.line.length > moves.length) && lineMatches moves item.line then
        let nextMove := item.line.getD moves.length ""
        if acc.1.contains nextMove then acc
        else (nextMove :: acc.1, acc.2 ++ [⟨nextMove, item.name, item.eco⟩])
      else acc)

def findContinuations (book : List OpeningEntry) (moves : List String) :
    List Continuation :=
  (continuationsScan moves book ([], [])).2

/-- `detectOpening` generalised over the book it scans. -/
def detectOpeningIn (book : List OpeningEntry) (moves : List String) :
    OpeningResult :=
  match (detectScan moves book (none, 0)).1 with
  | some b =>
    ⟨b.eco, b.name, (1, b.line.length), findContinuations book moves⟩
  | none =>
    ⟨"A00", "Uncommon Opening",
      (1, min 8 (if moves.length = 0 then 8 else moves.length)),
      findContinuations book moves⟩

/-- The static `openingBook` array (`server.js` lines 422-513). -/
def openingBook : List OpeningEntry := [
  ⟨["e4", "e5", "Nf3", "Nc6", "Bb5"], "C60", "Ruy Lopez"⟩,
  ⟨["e4", "e5", "Nf3", "Nc6", "Bb5", "a6"], "C68", "Ruy Lopez, Exchange Variation"⟩,
  ⟨["e4", "e5", "Nf3", "Nc6", "Bc4"], "C50", "Italian Game"⟩,
  ⟨["e4", "e5", "Nf3", "Nc6", "Bc4", "Bc5"], "C50", "Giuoco Piano"⟩,
  ⟨["e4", "e5", "Nf3", "Nc6", "Bc4", "Nf6"], "C55", "Two Knights Defense"⟩,
  ⟨["e4", "e5", "Nf3", "Nc6", "d4"], "C44", "Scotch Game"⟩,
  ⟨["e4", "e5", "Nf3", "Nf6"], "C42", "Petrov Defense"⟩,
  ⟨["e4", "e5", "Nf3", "d6"], "C41", "Philidor Defense"⟩,
  ⟨["e4", "e5", "f4"], "C30", "King\x27s Gambit"⟩,
  ⟨["e4", "e5", "Nc3"], "C25", "Vienna Game"⟩,
  ⟨["e4", "e5", "d4"], "C21", "Center Game"⟩,
  ⟨["e4", "c5"], "B20", "Sicilian Defence"⟩,
  ⟨["e4", "c5", "Nf3", "d6", "d4", "cxd4", "Nxd4", "Nf6", "Nc3"], "B90", "Sicilian Najdorf"⟩,
  ⟨["e4", "c5", "Nf3", "Nc6"], "B30", "Sicilian, Old Sicilian"⟩,
  ⟨["e4", "c5", "Nf3", "e6"], "B40", "Sicilian, French Variation"⟩,
  ⟨["e4", "c5", "c3"], "B22", "Sicilian Alapin"⟩,
  ⟨["e4", "c5", "Nf3", "d6", "d4", "cxd4", "Nxd4", "Nf6", "Nc3", "a6"], "B90", "Sicilian Najdorf"⟩,
  ⟨["e4", "c5", "Nf3", "d6", "d4", "cxd4", "Nxd4", "Nf6", "Nc3", "g6"], "B76", "Sicilian Dragon"⟩,
  ⟨["e4", "e6"], "C00", "French Defence"⟩,
  ⟨["e4", "e6", "d4", "d5"], "C00", "French Defence"⟩,
  ⟨["e4", "e6", "d4", "d5", "Nc3"], "C03", "French Tarrasch"⟩,
  ⟨["e4", "e6", "d4", "d5", "e5"], "C02", "French Advance"⟩,
  ⟨["e4", "e6", "d4", "d5", "exd5"], "C01", "French Exchange"⟩,
  ⟨["e4", "c6"], "B10", "Caro-Kann Defence"⟩,
  ⟨["e4", "c6", "d4", "d5"], "B12", "Caro-Kann Defence"⟩,
  ⟨["e4", "c6", "d4", "d5", "Nc3"], "B15", "Caro-Kann, Main Line"⟩,
  ⟨["e4", "c6", "d4", "d5", "e5"], "B12", "Caro-Kann Advance"⟩,
  ⟨["e4", "d5"], "B01", "Scandinavian Defense"⟩,
  ⟨["e4", "d5", "exd5", "Qxd5"], "B01", "Scandinavian Defense, Mieses-Kotroc"⟩,
  ⟨["e4", "d6"], "B07", "Pirc Defense"⟩,
  ⟨["e4", "g6"], "B06", "Modern Defense"⟩,
  ⟨["e4", "Nf6"], "B02", "Alekhine\x27s Defense"⟩,
  ⟨["d4", "d5", "c4"], "D06", "Queen\x27s Gambit"⟩,
  ⟨["d4", "d5", "c4", "e6"], "D30", "Queen\x27s Gambit Declined"⟩,
  ⟨["d4", "d5", "c4", "dxc4"], "D20", "Queen\x27s Gambit Accepted"⟩,
  ⟨["d4", "d5", "c4", "c6"], "D10", "Slav Defense"⟩,
  ⟨["d4", "d5", "c4", "e6", "Nc3", "Nf6", "Bg5"], "D53", "QGD, Classical"⟩,
  ⟨["d4", "d5", "c4", "e6", "Nc3", "Nf6", "Nf3"], "D37", "QGD, 3 Knights"⟩,
  ⟨["d4", "Nf6", "c4", "g6", "Nc3", "Bg7", "e4"], "E70", "King\x27s Indian Defence"⟩,
  ⟨["d4", "Nf6", "c4", "g6"], "E60", "King\x27s Indian Defence"⟩,
  ⟨["d4", "Nf6", "c4", "e6", "Nc3", "Bb4"], "E20", "Nimzo-Indian Defence"⟩,
  ⟨["d4", "Nf6", "c4", "e6", "Nf3", "b6"], "E10", "Queen\x27s Indian Defence"⟩,
  ⟨["d4", "Nf6", "c4", "e6", "g3"], "E00", "Catalan Opening"⟩,
  ⟨["d4", "Nf6", "c4", "c5"], "A50", "Benoni Defense"⟩,
  ⟨["d4", "Nf6", "c4", "c5", "d5", "e6"], "A60", "Modern Benoni"⟩,
  ⟨["c4"], "A10", "English Opening"⟩,
  ⟨["c4", "e5"], "A20", "English, Reversed Sicilian"⟩,
  ⟨["c4", "Nf6"], "A15", "English, Anglo-Indian"⟩,
  ⟨["c4", "c5"], "A30", "English, Symmetrical"⟩,
  ⟨["Nf3", "d5", "c4"], "A09", "Reti Opening"⟩,
  ⟨["Nf3"], "A04", "Reti Opening"⟩,
  ⟨["d4", "Nf6", "Bf4"], "D00", "London System"⟩,
  ⟨["d4", "d5", "Bf4"], "D00", "London System"⟩,
  ⟨["d4", "Nf6", "Bg5"], "A45", "Trompowsky Attack"⟩,
  ⟨["d4", "f5"], "A80", "Dutch Defense"⟩,
  ⟨["d4", "Nf6", "c4", "g6", "Nc3", "d5"], "D80", "Grunfeld Defense"⟩,
  ⟨["f4"], "A02", "Bird\x27s Opening"⟩,
  ⟨["d4", "d5"], "D00", "Queen\x27s Pawn Game"⟩,
  ⟨["d4", "Nf6"], "A46", "Indian Game"⟩]

/-- `detectOpening` as shipped: the scan over the static book. -/
def detectOpening (moves : List String) : OpeningResult :=
  detectOpeningIn openingBook moves

/-! ## Theorems -/

/-- Claim C4: `classify` is a pure total step function on non-negative
integers: for every delta, exactly one quality category applies, with
delta ≤ 20 mapping to Best, 21..60 to Good, 61..150 to Inaccuracy,
151..300 to Mistake, and delta ≥ 301 to Blunder; boundaries are inclusive
on the lower category, and the five categories are pairwise distinct, so
exactly one of the five equations holds for each delta. -/
theorem classify_step_function (d : Int) (hd : 0 ≤ d) :
    (classify d = bestCat ↔ d ≤ 20) ∧
    (classify d = goodCat ↔ 21 ≤ d ∧ d ≤ 60) ∧
    (classify d = inaccuracyCat ↔ 61 ≤ d ∧ d ≤ 150) ∧
    (classify d = mistakeCat ↔ 151 ≤ d ∧ d ≤ 300) ∧
    (classify d = blunderCat ↔ 301 ≤ d) ∧
    (bestCat ≠ goodCat ∧ bestCat ≠ inaccuracyCat ∧ bestCat ≠ mistakeCat ∧
      bestCat ≠ blunderCat ∧ goodCat ≠ inaccuracyCat ∧ goodCat ≠ mistakeCat ∧
      goodCat ≠ blunderCat ∧ inaccuracyCat ≠ mistakeCat ∧
      inaccuracyCat ≠ blunderCat ∧ mistakeCat ≠ blunderCat) := by
  unfold classify
  split_ifs with h1 h2 h3 h4 <;>
    refine ⟨?_, ?_, ?_, ?_, ?_, by decide⟩ <;>
      constructor <;> intro h <;>
        first
          | rfl
          | exact absurd h (by decide)
          | omega

/-- Concrete witness for `classify_step_function` at delta 20 and 21. -/
theorem classify_step_function_witness :
    ((0 : Int) ≤ 20 ∧ (classify 20 = bestCat ↔ (20 : Int) ≤ 20)) ∧
    ((0 : Int) ≤ 21 ∧ (classify 21 = goodCat ↔ 21 ≤ (21 : Int) ∧ (21 : Int) ≤ 60)) :=
  ⟨⟨by decide, (classify_step_function 20 (by decide)).1⟩,
    ⟨by decide, (classify_step_function 21 (by decide)).2.1⟩⟩

/-- One scan step: the head is consumed on a match, otherwise the scan
continues on the tail (the matched index shifts by one, so the slice is
unchanged). -/
theorem waitForScan_cons (p : String → Bool) (x : String) (xs : List String) :
    waitForScan p (x :: xs) = if p x then some (x, xs) else waitForScan p xs := by
  unfold waitForScan
  rw [List.findIdx?_cons]
  by_cases hx : p x
  · simp [hx]
  · simp only [hx, if_false]
    rw [List.findIdx?_succ]
    cases h : xs.findIdx? p with
    | none => simp [h]
    | some i => simp [h]

/-- A buffer whose first match is `l` scans to `l` with exactly the newer
lines retained. -/
theorem waitForScan_match (p : String → Bool) (pre post : List String)
    (l : String) (hpre : ∀ x ∈ pre, p x = false) (hl : p l = true) :
    waitForScan p (pre ++ l :: post) = some (l, post) := by
  induction pre with
  | nil => simp [waitForScan_cons, hl]
  | cons a as ih =>
    have ha : p a = false := hpre a (by simp)
    rw [List.cons_append, waitForScan_cons]
    simp only [ha, if_false]
    exact ih (fun x hx => hpre x (by simp [hx]))

/-- A buffer with no matching line scans to nothing. -/
theorem waitForScan_none (p : String → Bool) (lines : List String)
    (h : ∀ x ∈ lines, p x = false) : waitForScan p lines = none := by
  induction lines with
  | nil => rfl
  | cons a as ih =>
    rw [waitForScan_cons]
    simp only [h a (by simp), if_false]
    exact ih (fun x hx => h x (by simp [hx]))

/-- Claim C8: for every buffer of pending lines and every predicate,
`waitFor` returns the earliest buffered line satisfying the predicate and
removes that line together with every older line, leaving all newer lines
in place; and if no buffered or newly arrived line satisfies the predicate
within the timeout, it fails with the engine-timeout error. -/
theorem waitFor_spec :
    (∀ (p : String → Bool) (pre post : List String) (l : String)
        (arrivals : List (List String)),
      (∀ x ∈ pre, p x = false) → p l = true →
      waitForRun p (pre ++ l :: post) arrivals = Except.ok (l, post)) ∧
    (∀ (p : String → Bool) (lines : List String) (arrivals : List (List String)),
      (∀ x ∈ lines, p x = false) → (∀ b ∈ arrivals, ∀ x ∈ b, p x = false) →
      waitForRun p lines arrivals = Except.error "Engine timeout") := by
  constructor
  · intro p pre post l arrivals hpre hl
    cases arrivals <;>
      simp [waitForRun, waitForScan_match p pre post l hpre hl]
  · intro p lines arrivals
    induction arrivals generalizing lines with
    | nil =>
      intro hlines _
      simp [waitForRun, waitForScan_none p lines hlines]
    | cons b rest ih =>
      intro hlines harr
      have hb : ∀ x ∈ lines ++ b, p x = false := by
        intro x hx
        rcases List.mem_append.mp hx with h | h
        · exact hlines x h
        · exact harr b (by simp) x h
      rw [waitForRun]
      simp only [waitForScan_none p lines hlines]
      exact ih (lines ++ b) hb (fun b2 hb2 => harr b2 (by simp [hb2]))

/-- Concrete witness for `waitFor_spec`: a buffered `bestmove` line is
matched past one older line, and a predicate matched by nothing times out. -/
theorem waitFor_spec_witness :
    waitForRun (fun l => l == "bestmove e2e4") (["info a"] ++ "bestmove e2e4" :: ["later"]) []
        = Except.ok ("bestmove e2e4", ["later"]) ∧
    waitForRun (fun l => l == "bestmove e2e4") ["info a"] [["info b"]]
        = Except.error "Engine timeout" :=
  ⟨waitFor_spec.1 (fun l => l == "bestmove e2e4") ["info a"] ["later"]
      "bestmove e2e4" [] (by decide) (by decide),
    waitFor_spec.2 (fun l => l == "bestmove e2e4") ["info a"] [["info b"]]
      (by decide) (by decide)⟩

/-- Claim C2 counterexample: submit a throwing task followed by a
succeeding one.  The claim predicts the second task is attempted and its
caller observes its own result `(true, Except.ok ())`; the queue actually
skips the second task and its caller observes the first task's failure,
because `this.queue.then(...)` has no rejection handler. -/
theorem run_queue_counterexample :
    submitAll [Except.error (0 : Nat), Except.ok ()]
        = [(true, Except.error 0), (false, Except.error 0)] ∧
    ¬ submitAll [Except.error (0 : Nat), Except.ok ()]
        = [(true, Except.error 0), (true, Except.ok ())] := by
  refine ⟨rfl, fun h => ?_⟩
  simp [submitAll, runQueue] at h

/-- Claim C2 amended: once a queued task throws, the promise chain is
rejected and stays rejected: the tasks before the first failure run in
order and their callers observe their own results, the failing task runs
and its caller observes the failure, and every later queued task is
skipped (never attempted), its caller observing the first failure instead
of its own result. -/
theorem run_queue_amended {E : Type} (pre post : List (Except E Unit)) (e : E)
    (hpre : ∀ t ∈ pre, t = Except.ok ()) :
    submitAll (pre ++ Except.error e :: post)
      = pre.map (fun t => (true, t)) ++ (true, Except.error e) ::
          post.map (fun _ => (false, Except.error e)) := by
  have hrej : ∀ (ts : List (Except E Unit)),
      runQueue (Except.error e) ts = ts.map (fun _ => (false, Except.error e)) := by
    intro ts
    induction ts with
    | nil => rfl
    | cons t ts ih => rw [runQueue, ih]; rfl
  unfold submitAll
  induction pre with
  | nil =>
    rw [List.nil_append, runQueue, hrej]
    rfl
  | cons t ts ih =>
    have ht : t = Except.ok () := hpre t (by simp)
    subst ht
    rw [List.cons_append, runQueue,
      ih (fun t2 ht2 => hpre t2 (by simp [ht2]))]
    rfl

/-- Concrete witness for `run_queue_amended`: one succeeding task, one
throwing task, one task queued after the failure. -/
theorem run_queue_amended_witness :
    submitAll [Except.ok (), Except.error (7 : Nat), Except.ok ()]
      = [(true, Except.ok ()), (true, Except.error 7), (false, Except.error 7)] :=
  run_queue_amended [Except.ok ()] [Except.ok ()] 7 (by simp)

/-- Dropping into a default: the last element of `a :: l`, defaulting to
`s`, is the last element of `l` defaulting to `a`. -/
theorem getLast?_cons_getD (l : List Int) :
    ∀ a s : Int, ((a :: l).getLast?).getD s = (l.getLast?).getD a := by
  induction l with
  | nil => intro a s; rfl
  | cons b l2 ih =>
    intro a s
    rw [List.getLast?_cons_cons, ih b s, ih b a]

/-- The `evaluateMove` read loop returns, for an output that reaches a
`bestmove` line, the last score report seen before it, starting from the
accumulator `s`. -/
theorem evaluateMoveLoop_eq (output : List EngineLine) :
    ∀ s : Int, evaluateMoveLoop s output =
      if output.any isBestmoveLine then
        some ((((output.takeWhile (fun l => ! isBestmoveLine l)).filterMap
            scoreLineVal).getLast?).getD s)
      else none := by
  induction output with
  | nil => intro s; rfl
  | cons line rest ih =>
    intro s
    cases line with
    | bestmove r => simp [evaluateMoveLoop, isBestmoveLine]
    | scoreMsg k v =>
      rw [evaluateMoveLoop, ih (scoreOf k v)]
      simp only [List.any_cons, isBestmoveLine, Bool.false_or,
        List.takeWhile_cons, Bool.not_false, if_true, List.filterMap_cons,
        scoreLineVal]
      by_cases h : rest.any isBestmoveLine
      · simp only [h, if_true, getLast?_cons_getD]
      · simp [h]
    | other r =>
      rw [evaluateMoveLoop, ih s]
      simp [isBestmoveLine, scoreLineVal]

/-- Claim C1 counterexample: an exchange whose engine reports `score cp 50`
and then `bestmove`.  The claim predicts the pool operation returns the
negated score `-50`; `evaluateMove` actually resolves with the raw `50`
(the negation happens later, in the all-moves handler). -/
theorem evaluateMove_negation_counterexample :
    evaluateMove [EngineLine.scoreMsg ScoreKind.cp 50, EngineLine.bestmove "e2e4"]
        = some 50 ∧
    reportedScore [EngineLine.scoreMsg ScoreKind.cp 50, EngineLine.bestmove "e2e4"]
        = some 50 ∧
    ¬ evaluateMove [EngineLine.scoreMsg ScoreKind.cp 50, EngineLine.bestmove "e2e4"]
        = some (-50) := by
  refine ⟨rfl, rfl, fun h => ?_⟩
  simp [evaluateMove, evaluateMoveLoop, scoreOf] at h

/-- The rows array built by the all-moves loop: one row per legal move in
enumeration order, carrying the negated engine score. -/
theorem allMovesLoop_fst (rawEval : String → Int) (total : Nat) :
    ∀ (legal : List String) (i : Nat),
      (allMovesLoop rawEval total legal i).1
        = legal.map (fun m => ⟨m, -(rawEval m)⟩) := by
  intro legal
  induction legal with
  | nil => intro i; rfl
  | cons m rest ih =>
    intro i
    simp only [allMovesLoop, List.map_cons]
    rw [ih (i + 1)]

/-- Claim C1 amended: `EnginePool.evaluateMove` returns the engine-reported
score unchanged (the perspective of the side to move after the move); it is
its caller, the all-moves handler, that negates the score when building each
row (`evalCp: -evalCp`), so the rows carry mover-perspective scores. -/
theorem evaluateMove_raw_then_handler_negates :
    (∀ output : List EngineLine, evaluateMove output = reportedScore output) ∧
    (∀ (rawEval : String → Int) (total : Nat) (legal : List String) (i : Nat),
      (allMovesLoop rawEval total legal i).1
        = legal.map (fun m => ⟨m, -(rawEval m)⟩)) := by
  constructor
  · intro output
    rw [evaluateMove, evaluateMoveLoop_eq output 0, reportedScore]
  · intro rawEval total legal i
    exact allMovesLoop_fst rawEval total legal i

/-- Default `PlyReview`, used only as the out-of-range fallback of `getD`. -/
def dfltPly : PlyReview := ⟨0, "", "", 0, 0, bestCat⟩

/-- Scenario oracle: position-before best score +50, position-after best
score -50 (opponent perspective), anything else 7. -/
def evalScenarioA : String → Int :=
  fun f => if f = "q1" then 50 else if f = "p1" then -50 else 7

/-- Scenario oracle: position-before best score +50, position-after best
score +10 (opponent perspective), anything else 7. -/
def evalScenarioB : String → Int :=
  fun f => if f = "q1" then 50 else if f = "p1" then 10 else 7

/-- Indexing the `plies` array hits the loop body at that index. -/
theorem analyzeGamePlies_getD (bestEval : String → Int)
    (moves fenSeq preSeq : List String) (i : Nat) (hi : i < fenSeq.length) :
    (analyzeGamePlies bestEval moves fenSeq preSeq).getD i dfltPly
      = reviewPly bestEval moves fenSeq preSeq i := by
  unfold analyzeGamePlies
  rw [List.getD_eq_getElem?_getD, List.getElem?_map, List.getElem?_range hi]
  rfl

/-- Claim C3: in the game-review pipeline, a ply `i > 0` whose
position-before entry is supplied records
`deltaCp = max(0, evalBefore + evalAfter)`, ply 0 records `deltaCp = 0`
unconditionally, and in the two concrete scenarios (before +50 / after
-50, and before +50 / after +10) the recorded deltas are 0 and 60. -/
theorem gameReview_delta (bestEval : String → Int)
    (moves fenSeq preSeq : List String) (i : Nat) (hi : i < fenSeq.length) :
    ((0 < i → preSeq.getD i "" ≠ "" →
        ((analyzeGamePlies bestEval moves fenSeq preSeq).getD i dfltPly).deltaCp
          = max 0 (bestEval (preSeq.getD i "") + bestEval (fenSeq.getD i ""))) ∧
      (i = 0 →
        ((analyzeGamePlies bestEval moves fenSeq preSeq).getD i dfltPly).deltaCp
          = 0)) ∧
    ((analyzeGamePlies evalScenarioA ["x"] ["p0", "p1"] ["", "q1"]).map
        PlyReview.deltaCp = [0, 0] ∧
      (analyzeGamePlies evalScenarioB ["x"] ["p0", "p1"] ["", "q1"]).map
        PlyReview.deltaCp = [0, 60]) := by
  refine ⟨⟨?_, ?_⟩, by decide, by decide⟩
  · intro h0 hpre
    rw [analyzeGamePlies_getD bestEval moves fenSeq preSeq i hi]
    simp only [reviewPly]
    rw [if_pos (And.intro h0 hpre)]
  · intro h
    subst h
    rw [analyzeGamePlies_getD bestEval moves fenSeq preSeq 0 hi]
    simp only [reviewPly]
    rw [if_neg (fun h2 => absurd h2.1 (lt_irrefl 0))]

/-- Concrete witness for `gameReview_delta`: ply 1 of the first scenario
records `max(0, 50 + (-50)) = 0`. -/
theorem gameReview_delta_witness :
    (1 < 2) ∧
    ((analyzeGamePlies evalScenarioA ["x"] ["p0", "p1"] ["", "q1"]).getD 1
        dfltPly).deltaCp
      = max 0 (evalScenarioA "q1" + evalScenarioA "p1") :=
  ⟨by decide,
    (gameReview_delta evalScenarioA ["x"] ["p0", "p1"] ["", "q1"] 1
        (by decide)).1.1 (by decide) (by decide)⟩

/-- Claim C9 (implicit): every ply whose position-before entry is missing
or empty records `deltaCp = 0`, and a request supplying positions-after
but no positions-before yields `deltaCp = 0` and category Best for every
ply and an empty turning-point list, regardless of the evaluation scores. -/
theorem gameReview_missing_pre (bestEval : String → Int)
    (moves fenSeq preSeq : List String) :
    (∀ i, i < fenSeq.length → preSeq.getD i "" = "" →
        ((analyzeGamePlies bestEval moves fenSeq preSeq).getD i dfltPly).deltaCp
          = 0) ∧
    (∀ p ∈ analyzeGamePlies bestEval moves fenSeq [],
        p.deltaCp = 0 ∧ p.category = bestCat) ∧
    turningPointsOf (analyzeGamePlies bestEval moves fenSeq []) = [] := by
  have hbody : ∀ i, (reviewPly bestEval moves fenSeq [] i).deltaCp = 0 := by
    intro i
    simp [reviewPly]
  refine ⟨?_, ?_, ?_⟩
  · intro i hi hempty
    rw [analyzeGamePlies_getD bestEval moves fenSeq preSeq i hi]
    simp only [reviewPly]
    rw [if_neg (fun h2 => h2.2 hempty)]
  · intro p hp
    obtain ⟨i, _, rfl⟩ := List.mem_map.mp hp
    exact ⟨hbody i, by simp [reviewPly, classify]⟩
  · rw [turningPointsOf, List.filter_eq_nil_iff]
    intro p hp
    obtain ⟨i, _, rfl⟩ := List.mem_map.mp hp
    simp [hbody i]

/-- Concrete witness for `gameReview_missing_pre`: two positions-after,
no positions-before. -/
theorem gameReview_missing_pre_witness :
    ((analyzeGamePlies evalScenarioA ["x"] ["p0", "p1"] []).getD 1 dfltPly).deltaCp
        = 0 ∧
    turningPointsOf (analyzeGamePlies evalScenarioA ["x"] ["p0", "p1"] []) = [] :=
  ⟨(gameReview_missing_pre evalScenarioA ["x"] ["p0", "p1"] []).1 1 (by decide) rfl,
    (gameReview_missing_pre evalScenarioA ["x"] ["p0", "p1"] []).2.2⟩

/-- The code's index-wise front test agrees with the prefix relation:
`lineMatches line ms` holds exactly when `ms` extends `line`. -/
theorem lineMatches_iff (line : List String) :
    ∀ ms : List String, lineMatches line ms = true ↔ ∃ t, ms = line ++ t := by
  induction line with
  | nil =>
    intro ms
    simp [lineMatches]
  | cons m ls ih =>
    intro ms
    cases ms with
    | nil => simp [lineMatches]
    | cons x xs =>
      rw [lineMatches]
      simp only [Bool.and_eq_true, beq_iff_eq, ih xs, List.cons_append,
        List.cons.injEq]
      constructor
      · rintro ⟨rfl, t, rfl⟩
        exact ⟨t, rfl, rfl⟩
      · rintro ⟨t, rfl, rfl⟩
        exact ⟨rfl, t, rfl⟩

/-- `b` is the entry `detectOpening`'s loop should keep for `moves`:
it matches, every matching entry before it in the book is strictly
shorter, and every matching entry after it is no longer (so the earliest
entry wins a tie). -/
def FirstLongestMatch (book : List OpeningEntry) (moves : List String)
    (b : OpeningEntry) : Prop :=
  ∃ pre post, book = pre ++ b :: post ∧ lineMatches b.line moves = true ∧
    0 < b.line.length ∧
    (∀ e ∈ pre, lineMatches e.line moves = true → e.line.length < b.line.length) ∧
    (∀ e ∈ post, lineMatches e.line moves = true → e.line.length ≤ b.line.length)

/-- The scan leaves its accumulator unchanged over a stretch of entries
none of which beats the accumulated length. -/
theorem detectScan_no_improve (moves : List String) (book : List OpeningEntry) :
    ∀ acc : Option OpeningEntry × Nat,
      (∀ e ∈ book, lineMatches e.line moves = true → e.line.length ≤ acc.2) →
      detectScan moves book acc = acc := by
  induction book with
  | nil => intro acc _; rfl
  | cons item rest ih =>
    intro acc h
    rw [detectScan]
    have hstep :
        (if lineMatches item.line moves && decide (item.line.length > acc.2) then
          (some item, item.line.length)
        else acc) = acc := by
      by_cases hm : lineMatches item.line moves
      · have hle := h item (by simp) hm
        have : decide (item.line.length > acc.2) = false := by
          simp only [decide_eq_false_iff_not]
          omega
        rw [hm, this]
        rfl
      · rw [Bool.eq_false_iff.mpr hm]
        rfl
    rw [hstep]
    exact ih acc (fun e he hm => h e (by simp [he]) hm)

/-- Once every remaining prior entry is strictly shorter than `b`, the
scan of `pre ++ b :: post` ends with `b` selected. -/
theorem detectScan_select (moves : List String) (b : OpeningEntry)
    (post : List OpeningEntry)
    (hb : lineMatches b.line moves = true)
    (hpost : ∀ e ∈ post, lineMatches e.line moves = true →
      e.line.length ≤ b.line.length) :
    ∀ (pre : List OpeningEntry) (acc : Option OpeningEntry × Nat),
      (∀ e ∈ pre, lineMatches e.line moves = true →
        e.line.length < b.line.length) →
      acc.2 < b.line.length →
      detectScan moves (pre ++ b :: post) acc = (some b, b.line.length) := by
  intro pre
  induction pre with
  | nil =>
    intro acc _ hacc
    rw [List.nil_append, detectScan]
    have hcond : (lineMatches b.line moves && decide (b.line.length > acc.2)) = true := by
      rw [hb]
      simp only [Bool.true_and, decide_eq_true_eq]
      omega
    rw [hcond]
    simp only [if_true]
    exact detectScan_no_improve moves post (some b, b.line.length)
      (fun e he hm => hpost e he hm)
  | cons e pre2 ih =>
    intro acc hpre hacc
    rw [List.cons_append, detectScan]
    have hpre2 : ∀ e2 ∈ pre2, lineMatches e2.line moves = true →
        e2.line.length < b.line.length :=
      fun e2 he2 hm => hpre e2 (by simp [he2]) hm
    by_cases hm : lineMatches e.line moves
    · by_cases hgt : e.line.length > acc.2
      · rw [hm]
        simp only [decide_eq_true_eq] at *
        rw [if_pos (by simp [hgt])]
        exact ih (some e, e.line.length) hpre2 (hpre e (by simp) hm)
      · rw [hm]
        rw [if_neg (by simp [hgt])]
        exact ih acc hpre2 hacc
    · rw [Bool.eq_false_iff.mpr hm]
      simp only [Bool.false_and, if_false]
      exact ih acc hpre2 hacc

/-- A 4-move book entry matching the front of the example sequence. -/
def entryFour : OpeningEntry := ⟨["e4", "e5", "Nf3", "Nc6"], "X44", "Four"⟩

/-- A 5-move book entry matching the whole example sequence. -/
def entryFive : OpeningEntry := ⟨["e4", "e5", "Nf3", "Nc6", "Bb5"], "X55", "Five"⟩

/-- A book holding both a 4-move and a 5-move entry for the example. -/
def exampleBook45 : List OpeningEntry := [entryFour, entryFive]

/-- Claim C6: opening detection selects, among all book entries whose
line is a prefix of (or equal to) the move sequence, the one with the
longest line, first entry winning equal lengths; with no matching entry
it returns `A00` with book ply range `[1, min(8, sequence length, or 8
when the sequence is empty)]`.  In particular, for
`e4 e5 Nf3 Nc6 Bb5` against a book holding both a 4-move and a 5-move
matching entry, the 5-move entry is returned, and against the shipped
book the 5-move `C60` entry is returned. -/
theorem detectOpening_spec (book : List OpeningEntry) (moves : List String) :
    (∀ line ms : List String, lineMatches line ms = true ↔ ∃ t, ms = line ++ t) ∧
    (∀ b : OpeningEntry, FirstLongestMatch book moves b →
      detectOpeningIn book moves
        = ⟨b.eco, b.name, (1, b.line.length), findContinuations book moves⟩) ∧
    ((∀ e ∈ book, lineMatches e.line moves = false) →
      detectOpeningIn book moves
        = ⟨"A00", "Uncommon Opening",
            (1, min 8 (if moves.length = 0 then 8 else moves.length)),
            findContinuations book moves⟩) ∧
    detectOpeningIn exampleBook45 ["e4", "e5", "Nf3", "Nc6", "Bb5"]
      = ⟨"X55", "Five", (1, 5), []⟩ ∧
    (detectOpening ["e4", "e5", "Nf3", "Nc6", "Bb5"]).eco = "C60" ∧
    (detectOpening ["e4", "e5", "Nf3", "Nc6", "Bb5"]).bookPlyRange = (1, 5) := by
  refine ⟨lineMatches_iff, ?_, ?_, by decide, by decide, by decide⟩
  · rintro b ⟨pre, post, rfl, hb, hlen, hpre, hpost⟩
    rw [detectOpeningIn,
      detectScan_select moves b post hb hpost pre (none, 0) hpre hlen]
  · intro hnone
    rw [detectOpeningIn, detectScan_no_improve moves book (none, 0)
      (fun e he hm => absurd hm (by simp [hnone e he]))]

/-- Concrete witness for `detectOpening_spec`: the 5-move entry is the
first-longest match of the two-entry example book. -/
theorem detectOpening_spec_witness :
    detectOpeningIn exampleBook45 ["e4", "e5", "Nf3", "Nc6", "Bb5"]
      = ⟨"X55", "Five", (1, 5), []⟩ :=
  (detectOpening_spec exampleBook45 ["e4", "e5", "Nf3", "Nc6", "Bb5"]).2.1
    entryFive
    ⟨[entryFour], [], rfl, by decide, by decide, by decide, by decide⟩

/-! ### Association-list facts for the LRUCache model -/

/-- The keys of the modelled `Map`, oldest-touched first. -/
def keysOf (l : List (κ × Entry α)) : List κ := l.map Prod.fst

theorem mapHas_iff (k : κ) (l : List (κ × Entry α)) :
    mapHas k l = true ↔ k ∈ keysOf l := by
  simp only [mapHas, keysOf, List.any_eq_true, decide_eq_true_eq, List.mem_map]

theorem mem_keysOf_mapErase (k k2 : κ) (l : List (κ × Entry α)) :
    k2 ∈ keysOf (mapErase k l) ↔ k2 ∈ keysOf l ∧ k2 ≠ k := by
  simp only [keysOf, mapErase, List.mem_map, List.mem_filter,
    decide_eq_true_eq]
  constructor
  · rintro ⟨p, ⟨hp, hne⟩, rfl⟩
    exact ⟨⟨p, hp, rfl⟩, hne⟩
  · rintro ⟨⟨p, hp, rfl⟩, hne⟩
    exact ⟨p, ⟨hp, hne⟩, rfl⟩

theorem not_mem_keysOf_mapErase (k : κ) (l : List (κ × Entry α)) :
    k ∉ keysOf (mapErase k l) := by
  intro h
  exact ((mem_keysOf_mapErase k k l).mp h).2 rfl

theorem mapErase_eq_self (k : κ) (l : List (κ × Entry α))
    (h : k ∉ keysOf l) : mapErase k l = l := by
  rw [mapErase, List.filter_eq_self]
  intro p hp
  simp only [decide_eq_true_eq]
  intro hk
  exact h (List.mem_map.mpr ⟨p, hp, hk⟩)

theorem nodup_keysOf_mapErase (k : κ) (l : List (κ × Entry α))
    (h : (keysOf l).Nodup) : (keysOf (mapErase k l)).Nodup := by
  have hsub : List.Sublist (mapErase k l) l := List.filter_sublist l
  exact List.Sublist.nodup (List.Sublist.map Prod.fst hsub) h

theorem mapLookup_eq_some_of_has (k : κ) :
    ∀ l : List (κ × Entry α), mapHas k l = true →
      ∃ e, mapLookup k l = some e := by
  intro l
  induction l with
  | nil => intro h; exact absurd h (by simp [mapHas])
  | cons p rest ih =>
    obtain ⟨k2, e2⟩ := p
    intro h
    by_cases hk : k2 = k
    · refine ⟨e2, ?_⟩
      simp only [mapLookup]
      rw [if_pos hk]
    · have h2 : mapHas k rest = true := by
        simp only [mapHas, List.any_cons, Bool.or_eq_true,
          decide_eq_true_eq] at h
        rcases h with h | h
        · exact absurd h hk
        · exact h
      obtain ⟨e, he⟩ := ih h2
      refine ⟨e, ?_⟩
      simp only [mapLookup]
      rw [if_neg hk]
      exact he

theorem mapLookup_append_self (k : κ) (e : Entry α) :
    ∀ l : List (κ × Entry α), k ∉ keysOf l →
      mapLookup k (l ++ [(k, e)]) = some e := by
  intro l
  induction l with
  | nil =>
    intro _
    simp only [List.nil_append, mapLookup]
    simp
  | cons p rest ih =>
    obtain ⟨k2, e2⟩ := p
    intro h
    have hk : k2 ≠ k :=
      fun hkk => h (List.mem_map.mpr ⟨(k2, e2), List.mem_cons_self _ _, hkk⟩)
    rw [List.cons_append]
    simp only [mapLookup]
    rw [if_neg hk]
    exact ih (fun hmem => h (List.mem_cons_of_mem k2 hmem))

theorem perm_cons_mapErase (k : κ) :
    ∀ (l : List (κ × Entry α)) (e : Entry α), (keysOf l).Nodup →
      mapLookup k l = some e → l.Perm ((k, e) :: mapErase k l) := by
  intro l
  induction l with
  | nil => intro e _ h; exact absurd h (by simp [mapLookup])
  | cons p rest ih =>
    obtain ⟨k2, e2⟩ := p
    intro e hnodup hlook
    have htail : (keysOf rest).Nodup := by
      simp only [keysOf, List.map_cons, List.nodup_cons] at hnodup
      exact hnodup.2
    simp only [mapLookup] at hlook
    by_cases hk : k2 = k
    · rw [if_pos hk] at hlook
      have he : e2 = e := Option.some.inj hlook
      subst he
      subst hk
      have hknotin : k2 ∉ keysOf rest := by
        simp only [keysOf, List.map_cons, List.nodup_cons] at hnodup
        exact hnodup.1
      have herase : mapErase k2 ((k2, e2) :: rest) = rest := by
        rw [mapErase, List.filter_cons]
        rw [if_neg (by simp)]
        exact mapErase_eq_self k2 rest hknotin
      rw [herase]
    · rw [if_neg hk] at hlook
      have hperm := ih e htail hlook
      have herase : mapErase k ((k2, e2) :: rest) = (k2, e2) :: mapErase k rest := by
        rw [mapErase, List.filter_cons]
        rw [if_pos (by simp [hk])]
        rfl
      rw [herase]
      exact (hperm.cons (k2, e2)).trans
        (List.Perm.swap (k, e) (k2, e2) (mapErase k rest))

theorem length_mapErase_add_one (k : κ) (l : List (κ × Entry α))
    (e : Entry α) (hnodup : (keysOf l).Nodup)
    (hlook : mapLookup k l = some e) :
    (mapErase k l).length + 1 = l.length := by
  have := (perm_cons_mapErase k l e hnodup hlook).length_eq
  simp only [List.length_cons] at this
  omega

/-! ### Unfolding the cache operations -/

theorem set_cache_of_has (c : LRUCache κ α) (now : Int) (k : κ) (v : α)
    (h : mapHas k c.cache = true) :
    (c.set now k v).cache = mapErase k c.cache ++ [(k, Entry.mk v now)] := by
  unfold LRUCache.set
  rw [if_neg (fun h2 => h2.2 h)]

theorem set_cache_fresh_room (c : LRUCache κ α) (now : Int) (k : κ) (v : α)
    (h : c.cache.length < c.maxSize) :
    (c.set now k v).cache = mapErase k c.cache ++ [(k, Entry.mk v now)] := by
  unfold LRUCache.set
  rw [if_neg (fun h2 => absurd h2.1 (by omega))]

theorem set_cache_fresh_full (c : LRUCache κ α) (now : Int) (k : κ) (v : α)
    (hfull : c.cache.length ≥ c.maxSize) (hfresh : ¬ mapHas k c.cache = true) :
    (c.set now k v).cache
      = mapErase k (c.cache.drop 1) ++ [(k, Entry.mk v now)] := by
  unfold LRUCache.set
  rw [if_pos ⟨hfull, fun h2 => hfresh h2⟩]

theorem get_of_none (c : LRUCache κ α) (now : Int) (k : κ)
    (h : mapLookup k c.cache = none) : c.get now k = (c, none) := by
  unfold LRUCache.get
  rw [h]

theorem get_of_expired (c : LRUCache κ α) (now : Int) (k : κ) (e : Entry α)
    (h : mapLookup k c.cache = some e) (ht : now - e.timestamp > c.ttlMs) :
    c.get now k = ({ c with cache := mapErase k c.cache }, none) := by
  unfold LRUCache.get
  rw [h]
  simp only [if_pos ht]

theorem get_of_hit (c : LRUCache κ α) (now : Int) (k : κ) (e : Entry α)
    (h : mapLookup k c.cache = some e) (ht : ¬ now - e.timestamp > c.ttlMs) :
    c.get now k
      = ({ c with cache := mapErase k c.cache ++ [(k, e)] }, some e.value) := by
  unfold LRUCache.get
  rw [h]
  simp only [if_neg ht]

/-! ### Cache operation sequences -/

/-- One cache operation as issued by the server, with the wall-clock time
at which it runs. -/
inductive CacheOp (κ α : Type) where
  | getOp (now : Int) (k : κ)
  | setOp (now : Int) (k : κ) (v : α)

/-- Run one operation, keeping the cache state (`get`'s returned value is
dropped). -/
def applyOp (c : LRUCache κ α) : CacheOp κ α → LRUCache κ α
  | CacheOp.getOp now k => (c.get now k).1
  | CacheOp.setOp now k v => c.set now k v

/-- Run a sequence of operations left to right. -/
def applyOps (c : LRUCache κ α) (ops : List (CacheOp κ α)) : LRUCache κ α :=
  ops.foldl applyOp c

/-- Every single operation preserves: distinct keys, entry count bounded
by capacity, and the capacity itself. -/
theorem applyOp_wf (c : LRUCache κ α) (op : CacheOp κ α)
    (h1 : (keysOf c.cache).Nodup) (h2 : c.cache.length ≤ c.maxSize)
    (h3 : 0 < c.maxSize) :
    (keysOf (applyOp c op).cache).Nodup ∧
    (applyOp c op).cache.length ≤ (applyOp c op).maxSize ∧
    (applyOp c op).maxSize = c.maxSize := by
  have happend : ∀ (l : List (κ × Entry α)) (k : κ) (e : Entry α),
      (keysOf l).Nodup → k ∉ keysOf l → (keysOf (l ++ [(k, e)])).Nodup := by
    intro l k e hl hk
    have : keysOf (l ++ [(k, e)]) = keysOf l ++ [k] := by
      simp [keysOf]
    rw [this]
    exact List.Nodup.append hl (List.nodup_singleton k)
      (fun a ha hb => by simp at hb; subst hb; exact hk ha)
  cases op with
  | getOp now k =>
    cases hl : mapLookup k c.cache with
    | none =>
      rw [applyOp, get_of_none c now k hl]
      exact ⟨h1, h2, rfl⟩
    | some e =>
      by_cases ht : now - e.timestamp > c.ttlMs
      · rw [applyOp, get_of_expired c now k e hl ht]
        refine ⟨nodup_keysOf_mapErase k c.cache h1, ?_, rfl⟩
        calc (mapErase k c.cache).length ≤ c.cache.length :=
              List.length_filter_le _ _
          _ ≤ c.maxSize := h2
      · rw [applyOp, get_of_hit c now k e hl ht]
        refine ⟨happend _ k e (nodup_keysOf_mapErase k c.cache h1)
          (not_mem_keysOf_mapErase k c.cache), ?_, rfl⟩
        have hlen := length_mapErase_add_one k c.cache e h1 hl
        simp only [List.length_append, List.length_cons, List.length_nil]
        omega
  | setOp now k v =>
    have hms : (c.set now k v).maxSize = c.maxSize := rfl
    by_cases hhas : mapHas k c.cache = true
    · rw [applyOp, set_cache_of_has c now k v hhas]
      obtain ⟨e, he⟩ := mapLookup_eq_some_of_has k c.cache hhas
      refine ⟨happend _ k _ (nodup_keysOf_mapErase k c.cache h1)
        (not_mem_keysOf_mapErase k c.cache), ?_, rfl⟩
      have hlen := length_mapErase_add_one k c.cache e h1 he
      simp only [List.length_append, List.length_cons, List.length_nil]
      omega
    · by_cases hfull : c.cache.length ≥ c.maxSize
      · rw [applyOp, set_cache_fresh_full c now k v hfull hhas]
        have hdropnodup : (keysOf (c.cache.drop 1)).Nodup := by
          have : List.Sublist (c.cache.drop 1) c.cache := List.drop_sublist 1 _
          exact List.Sublist.nodup (List.Sublist.map Prod.fst this) h1
        have hkfresh : k ∉ keysOf (c.cache.drop 1) := by
          intro hmem
          apply hhas
          rw [mapHas_iff]
          obtain ⟨p, hp, hpk⟩ := List.mem_map.mp hmem
          exact List.mem_map.mpr ⟨p, List.mem_of_mem_drop hp, hpk⟩
        rw [mapErase_eq_self k _ hkfresh]
        refine ⟨happend _ k _ hdropnodup hkfresh, ?_, rfl⟩
        simp only [List.length_append, List.length_drop, List.length_cons,
          List.length_nil]
        omega
      · rw [applyOp, set_cache_fresh_room c now k v (by omega)]
        have hkfresh : k ∉ keysOf c.cache := fun hmem =>
          hhas ((mapHas_iff k c.cache).mpr hmem)
        rw [mapErase_eq_self k _ hkfresh]
        refine ⟨happend _ k _ h1 hkfresh, ?_, rfl⟩
        simp only [List.length_append, List.length_cons, List.length_nil]
        omega

/-- Invariant preservation along a whole operation sequence. -/
theorem applyOps_wf :
    ∀ (ops : List (CacheOp κ α)) (c : LRUCache κ α),
      (keysOf c.cache).Nodup → c.cache.length ≤ c.maxSize → 0 < c.maxSize →
      (keysOf (applyOps c ops).cache).Nodup ∧
      (applyOps c ops).cache.length ≤ (applyOps c ops).maxSize ∧
      (applyOps c ops).maxSize = c.maxSize := by
  intro ops
  induction ops with
  | nil => intro c h1 h2 _; exact ⟨h1, h2, rfl⟩
  | cons op rest ih =>
    intro c h1 h2 h3
    obtain ⟨g1, g2, g3⟩ := applyOp_wf c op h1 h2 h3
    obtain ⟨t1, t2, t3⟩ := ih (applyOp c op) g1 g2 (by omega)
    simp only [applyOps, List.foldl_cons] at t1 t2 t3 ⊢
    exact ⟨t1, t2, t3.trans g3⟩

/-- Claim C10 (implicit): starting from the empty default cache, no
sequence of `get`/`set` operations pushes the entry count above the
capacity 500; and a `set` whose key is already present — at capacity or
not — rebinds that key to the new value while preserving the entry count
and the presence of every key (nothing is evicted). -/
theorem lruCache_capacity_and_update :
    (∀ ops : List (CacheOp Nat Nat),
      (applyOps (LRUCache.empty Nat Nat) ops).cache.length ≤ 500) ∧
    (∀ (κ α : Type) (_inst : DecidableEq κ) (c : LRUCache κ α) (now : Int)
        (k : κ) (v : α),
      (keysOf c.cache).Nodup → mapHas k c.cache = true →
      ((c.set now k v).cache.length = c.cache.length ∧
        (∀ k2, mapHas k2 (c.set now k v).cache = true ↔
          mapHas k2 c.cache = true) ∧
        mapLookup k (c.set now k v).cache = some (Entry.mk v now))) := by
  constructor
  · intro ops
    have h := applyOps_wf ops (LRUCache.empty Nat Nat)
      (by simp [LRUCache.empty, keysOf]) (by simp [LRUCache.empty])
      (by simp [LRUCache.empty])
    have : (applyOps (LRUCache.empty Nat Nat) ops).maxSize = 500 := h.2.2
    omega
  · intro κ α _inst c now k v hnodup hhas
    rw [set_cache_of_has c now k v hhas]
    obtain ⟨e, he⟩ := mapLookup_eq_some_of_has k c.cache hhas
    have hkmem : k ∈ keysOf c.cache := (mapHas_iff k c.cache).mp hhas
    refine ⟨?_, ?_, ?_⟩
    · have hlen := length_mapErase_add_one k c.cache e hnodup he
      simp only [List.length_append, List.length_cons, List.length_nil]
      omega
    · intro k2
      rw [mapHas_iff, mapHas_iff]
      have : keysOf (mapErase k c.cache ++ [(k, Entry.mk v now)])
          = keysOf (mapErase k c.cache) ++ [k] := by simp [keysOf]
      rw [this]
      simp only [List.mem_append, List.mem_singleton, mem_keysOf_mapErase]
      constructor
      · rintro (⟨hmem, _⟩ | rfl)
        · exact hmem
        · exact hkmem
      · intro hmem
        by_cases hk2 : k2 = k
        · exact Or.inr hk2
        · exact Or.inl ⟨hmem, hk2⟩
    · exact mapLookup_append_self k _ _ (not_mem_keysOf_mapErase k c.cache)

/-- Concrete witness for `lruCache_capacity_and_update`: a one-entry cache
whose present key is re-set. -/
theorem lruCache_capacity_and_update_witness :
    ((((LRUCache.empty Nat Nat).set 0 3 5).set 1 3 9).cache.length
        = ((LRUCache.empty Nat Nat).set 0 3 5).cache.length) ∧
    mapLookup 3 (((LRUCache.empty Nat Nat).set 0 3 5).set 1 3 9).cache
      = some (Entry.mk 9 1) :=
  ⟨(lruCache_capacity_and_update.2 Nat Nat inferInstance
      ((LRUCache.empty Nat Nat).set 0 3 5) 1 3 9 (by decide) (by decide)).1,
    (lruCache_capacity_and_update.2 Nat Nat inferInstance
      ((LRUCache.empty Nat Nat).set 0 3 5) 1 3 9 (by decide) (by decide)).2.2⟩

omit [DecidableEq κ] in
theorem keysOf_map_pair (e : Entry α) (ks : List κ) :
    keysOf (ks.map (fun k => (k, e))) = ks := by
  induction ks with
  | nil => rfl
  | cons k ks ih =>
    simp only [keysOf, List.map_cons] at ih ⊢
    rw [ih]

/-- `set` every key of `ks` in order, with value `v`, at time `now`. -/
def fillCache (c : LRUCache κ α) (now : Int) (v : α) (ks : List κ) :
    LRUCache κ α :=
  ks.foldl (fun c2 k => c2.set now k v) c

/-- Filling a cache with distinct fresh keys, within capacity, appends
one entry per key in order and changes nothing else. -/
theorem fillCache_fresh :
    ∀ (ks : List κ) (c : LRUCache κ α) (now : Int) (v : α),
      ks.Nodup → (∀ k ∈ ks, k ∉ keysOf c.cache) →
      c.cache.length + ks.length ≤ c.maxSize →
      (fillCache c now v ks).cache
          = c.cache ++ ks.map (fun k => (k, Entry.mk v now)) ∧
        (fillCache c now v ks).maxSize = c.maxSize ∧
        (fillCache c now v ks).ttlMs = c.ttlMs := by
  intro ks
  induction ks with
  | nil => intro c now v _ _ _; exact ⟨by simp [fillCache], rfl, rfl⟩
  | cons k ks ih =>
    intro c now v hnodup hfresh hlen
    have hkfresh : k ∉ keysOf c.cache := hfresh k (by simp)
    have hroom : c.cache.length < c.maxSize := by
      simp only [List.length_cons] at hlen
      omega
    have hset : (c.set now k v).cache = c.cache ++ [(k, Entry.mk v now)] := by
      rw [set_cache_fresh_room c now k v hroom, mapErase_eq_self k _ hkfresh]
    have hstep : fillCache c now v (k :: ks) = fillCache (c.set now k v) now v ks := rfl
    have hkeys2 : keysOf (c.set now k v).cache = keysOf c.cache ++ [k] := by
      rw [hset]
      simp [keysOf]
    have h1 : ∀ k2 ∈ ks, k2 ∉ keysOf (c.set now k v).cache := by
      intro k2 hk2
      rw [hkeys2]
      simp only [List.mem_append, List.mem_singleton]
      rintro (h | rfl)
      · exact hfresh k2 (by simp [hk2]) h
      · exact (List.nodup_cons.mp hnodup).1 hk2
    have h2 : (c.set now k v).cache.length + ks.length ≤ (c.set now k v).maxSize := by
      have hms : (c.set now k v).maxSize = c.maxSize := rfl
      rw [hms, hset]
      simp only [List.length_append, List.length_cons, List.length_nil]
      simp only [List.length_cons] at hlen
      omega
    obtain ⟨g1, g2, g3⟩ :=
      ih (c.set now k v) now v (List.nodup_cons.mp hnodup).2 h1 h2
    rw [hstep]
    refine ⟨?_, g2.trans rfl, g3.trans rfl⟩
    rw [g1, hset]
    simp [List.append_assoc]

/-- The C5 scenario: fill an empty default cache with the 500 keys
`k0 :: k1 :: rest`, refresh `k0` with a `get`, then insert the fresh key
`knew` (the 501st distinct key). -/
def c5Scenario (k0 k1 : κ) (rest : List κ) (knew : κ) (t : Int) (v : α) :
    LRUCache κ α :=
  ((((fillCache (LRUCache.empty κ α) t v (k0 :: k1 :: rest)).get t k0).1).set
    t knew v)

/-- Claim C5: inserting 501 distinct keys into an initially empty
capacity-500 cache leaves exactly 500 keys present, and the eviction
victim is the least-recently-touched key: after filling with 500 keys,
`get k0` refreshes `k0`'s recency, so inserting the 501st key evicts `k1`
(the oldest untouched key) while `k0` and the new key stay present; and a
`get` performed more than the TTL after a key's insertion returns absent
even if that key was the most recently used. -/
theorem lruCache_eviction_and_ttl (k0 k1 : κ) (rest : List κ) (knew : κ)
    (t : Int) (v : α)
    (hnodup : (k0 :: k1 :: rest).Nodup) (hlen : rest.length = 498)
    (hfresh : knew ∉ k0 :: k1 :: rest) :
    ((c5Scenario k0 k1 rest knew t v : LRUCache κ α).cache.length = 500 ∧
      mapHas k0 (c5Scenario k0 k1 rest knew t v : LRUCache κ α).cache = true ∧
      mapHas knew (c5Scenario k0 k1 rest knew t v : LRUCache κ α).cache = true ∧
      mapHas k1 (c5Scenario k0 k1 rest knew t v : LRUCache κ α).cache = false) ∧
    (∀ (c : LRUCache κ α) (k : κ) (v2 : α) (t2 : Int),
      t2 - t > c.ttlMs → ((c.set t k v2).get t2 k).2 = none) := by
  have hk0notin : k0 ∉ k1 :: rest := (List.nodup_cons.mp hnodup).1
  have hk1notin : k1 ∉ rest := (List.nodup_cons.mp (List.nodup_cons.mp hnodup).2).1
  constructor
  · -- the eviction scenario
    set e : Entry α := Entry.mk v t with he
    obtain ⟨g1, g2, g3⟩ := fillCache_fresh (k0 :: k1 :: rest)
      (LRUCache.empty κ α) t v hnodup
      (by intro k _ h; simp [LRUCache.empty, keysOf] at h)
      (by simp [LRUCache.empty, List.length_cons, hlen])
    set c1 := fillCache (LRUCache.empty κ α) t v (k0 :: k1 :: rest) with hc1def
    have hc1 : c1.cache
        = (k0, e) :: (k1, e) :: rest.map (fun k => (k, e)) := by
      rw [g1]
      simp [LRUCache.empty]
    have hc1ttl : c1.ttlMs = 3600000 := g3
    have hc1max : c1.maxSize = 500 := g2
    have htailkeys : keysOf ((k1, e) :: rest.map (fun k => (k, e)))
        = k1 :: rest := by
      simp only [keysOf, List.map_cons]
      rw [← keysOf, keysOf_map_pair]
    have hlook0 : mapLookup k0 c1.cache = some e := by
      rw [hc1]
      simp only [mapLookup]
      simp
    have hget := get_of_hit c1 t k0 e hlook0
      (by rw [hc1ttl]; simp [he])
    have herase0 : mapErase k0 c1.cache
        = (k1, e) :: rest.map (fun k => (k, e)) := by
      rw [hc1, mapErase, List.filter_cons]
      rw [if_neg (by simp)]
      exact mapErase_eq_self k0 _ (by rw [htailkeys]; exact hk0notin)
    set c2 := (c1.get t k0).1 with hc2def
    have hc2 : c2.cache
        = ((k1, e) :: rest.map (fun k => (k, e))) ++ [(k0, e)] := by
      rw [hc2def, hget]
      simp only
      rw [herase0]
    have hc2max : c2.maxSize = 500 := by
      rw [hc2def, hget]
      exact hc1max
    have hc2keys : keysOf c2.cache = (k1 :: rest) ++ [k0] := by
      rw [hc2]
      simp only [keysOf, List.map_append]
      rw [← keysOf, htailkeys]
      rfl
    have hc2len : c2.cache.length = 500 := by
      rw [hc2]
      simp [hlen]
    have hknewfresh : ¬ mapHas knew c2.cache = true := by
      rw [mapHas_iff, hc2keys]
      simp only [List.mem_append, List.mem_cons, List.mem_singleton]
      simp only [List.mem_cons] at hfresh
      tauto
    have hset := set_cache_fresh_full c2 t knew v
      (by rw [hc2len, hc2max]) hknewfresh
    have hdrop : c2.cache.drop 1 = rest.map (fun k => (k, e)) ++ [(k0, e)] := by
      rw [hc2]
      rfl
    have hdropkeys : keysOf (c2.cache.drop 1) = rest ++ [k0] := by
      rw [hdrop]
      simp only [keysOf, List.map_append]
      rw [← keysOf, keysOf_map_pair]
      rfl
    have hc3 : (c5Scenario k0 k1 rest knew t v : LRUCache κ α).cache
        = (rest.map (fun k => (k, e)) ++ [(k0, e)]) ++ [(knew, Entry.mk v t)] := by
      rw [c5Scenario, ← hc1def, ← hc2def, hset, hdrop]
      congr 1
      apply mapErase_eq_self
      rw [← hdrop, hdropkeys]
      simp only [List.mem_append, List.mem_singleton]
      simp only [List.mem_cons] at hfresh
      tauto
    have hc3keys : keysOf (c5Scenario k0 k1 rest knew t v : LRUCache κ α).cache
        = (rest ++ [k0]) ++ [knew] := by
      rw [hc3]
      simp only [keysOf, List.map_append]
      rw [← keysOf, keysOf_map_pair]
      rfl
    refine ⟨?_, ?_, ?_, ?_⟩
    · rw [hc3]
      simp [hlen]
    · rw [mapHas_iff, hc3keys]
      simp
    · rw [mapHas_iff, hc3keys]
      simp
    · rw [Bool.eq_false_iff]
      intro h
      rw [mapHas_iff, hc3keys] at h
      simp only [List.mem_append, List.mem_singleton] at h
      simp only [List.mem_cons] at hfresh
      rcases h with (h | h) | h
      · exact hk1notin h
      · exact hk0notin (h ▸ List.mem_cons_self k1 rest)
      · exact hfresh (Or.inr (Or.inl h.symm))
  · -- the TTL part
    intro c k v2 t2 ht
    have hlook : mapLookup k (c.set t k v2).cache = some (Entry.mk v2 t) := by
      unfold LRUCache.set
      exact mapLookup_append_self k _ _ (not_mem_keysOf_mapErase k _)
    have httl : (c.set t k v2).ttlMs = c.ttlMs := rfl
    rw [get_of_expired (c.set t k v2) t2 k (Entry.mk v2 t) hlook
      (by rw [httl]; exact ht)]

/-- Concrete witness for `lruCache_eviction_and_ttl`: keys `0`, `1`,
`2..499`, new key `500`, at time 0. -/
theorem lruCache_eviction_and_ttl_witness :
    (c5Scenario 0 1 (List.range' 2 498) 500 0 0 : LRUCache Nat Nat).cache.length
        = 500 ∧
    mapHas 0 (c5Scenario 0 1 (List.range' 2 498) 500 0 0 : LRUCache Nat Nat).cache
        = true ∧
    mapHas 1 (c5Scenario 0 1 (List.range' 2 498) 500 0 0 : LRUCache Nat Nat).cache
        = false :=
  have h := lruCache_eviction_and_ttl 0 1 (List.range' 2 498) 500 0 (0 : Nat)
    (by rw [List.nodup_cons, List.nodup_cons]
        refine ⟨?_, ?_, List.nodup_range' 2 498⟩
        · intro h
          rcases List.mem_cons.mp h with h | h
          · omega
          · have := List.mem_range'_1.mp h
            omega
        · intro h
          have := List.mem_range'_1.mp h
          omega)
    (by simp)
    (by intro h
        rcases List.mem_cons.mp h with h | h
        · omega
        · rcases List.mem_cons.mp h with h | h
          · omega
          · have := List.mem_range'_1.mp h; omega)
  ⟨h.1.1, h.1.2.1, h.1.2.2.2⟩

/-! ### The all-moves stream (claim C7) -/

theorem allMovesLoop_snd_length (rawEval : String → Int) (total : Nat) :
    ∀ (legal : List String) (i : Nat),
      (allMovesLoop rawEval total legal i).2.length = legal.length := by
  intro legal
  induction legal with
  | nil => intro i; rfl
  | cons m rest ih =>
    intro i
    simp only [allMovesLoop, List.length_cons]
    rw [ih (i + 1)]

/-- The `j`-th emitted `partial` event of the loop started at index `i`:
in enumeration order, with progress `(i + j + 1) / total`. -/
theorem allMovesLoop_snd_get (rawEval : String → Int) (total : Nat) :
    ∀ (legal : List String) (i j : Nat), j < legal.length →
      (allMovesLoop rawEval total legal i).2[j]?
        = some (SseEvent.progressEv (((i + j + 1 : ℕ) : ℚ) / (total : ℚ))
            ⟨legal.getD j "", -(rawEval (legal.getD j ""))⟩) := by
  intro legal
  induction legal with
  | nil => intro i j hj; simp at hj
  | cons m rest ih =>
    intro i j hj
    cases j with
    | zero =>
      simp only [allMovesLoop, List.getElem?_cons_zero, List.getD_cons_zero,
        Nat.add_zero]
      norm_cast
    | succ j2 =>
      simp only [allMovesLoop, List.getElem?_cons_succ, List.getD_cons_succ]
      rw [ih (i + 1) j2 (by simpa using hj)]
      have h : i + 1 + j2 + 1 = i + (j2 + 1) + 1 := by omega
      rw [h]

/-- The sorted rows are pairwise descending by `evalCp`. -/
theorem allMovesSorted_pairwise (rawEval : String → Int) (legal : List String) :
    List.Pairwise (fun a b : Row => b.evalCp ≤ a.evalCp)
      (allMovesSorted rawEval legal) := by
  have htrans : ∀ a b c : Row, rowLE a b → rowLE b c → rowLE a c := by
    intro a b c hab hbc
    simp only [rowLE, decide_eq_true_eq] at *
    omega
  have htotal : ∀ a b : Row, rowLE a b || rowLE b a := by
    intro a b
    simp only [rowLE, Bool.or_eq_true, decide_eq_true_eq]
    exact Int.le_total b.evalCp a.evalCp
  have h : ((allMovesLoop rawEval legal.length legal 0).1.mergeSort
        rowLE).Pairwise (fun a b => rowLE a b = true) :=
    List.sorted_mergeSort htrans htotal
      (allMovesLoop rawEval legal.length legal 0).1
  refine List.Pairwise.imp ?_ h
  intro a b hab
  simpa [rowLE] using hab

theorem allMovesSorted_length (rawEval : String → Int) (legal : List String) :
    (allMovesSorted rawEval legal).length = legal.length := by
  rw [allMovesSorted, sortRows, List.length_mergeSort,
    allMovesLoop_fst rawEval legal.length legal 0, List.length_map]

/-- Every sorted row's score is bounded by `bestEvalCp` (the head's). -/
theorem allMovesSorted_le_best (rawEval : String → Int) (legal : List String) :
    ∀ r ∈ allMovesSorted rawEval legal, r.evalCp ≤ allMovesBest rawEval legal := by
  have hp := allMovesSorted_pairwise rawEval legal
  cases hs : allMovesSorted rawEval legal with
  | nil => intro r hr; simp at hr
  | cons x rs =>
    intro r hr
    have hbest : allMovesBest rawEval legal = x.evalCp := by
      rw [allMovesBest, hs]
      rfl
    rw [hbest]
    rw [hs] at hp
    rcases List.mem_cons.mp hr with rfl | hr2
    · exact le_refl _
    · exact (List.pairwise_cons.mp hp).1 r hr2

/-- Claim C7: for a position with N legal moves, the all-moves stream
(absent cancellation) is exactly N `partial` events, one per move in
enumeration order, the j-th carrying progress fraction (j+1)/N — so the
fractions strictly increase and the last equals 1 — followed by exactly
one `final` event whose move list has length N, is sorted descending by
score, annotates each move with `delta = max(0, bestScore - thisScore)`
and its classification, and whose top entry has delta 0. -/
theorem allMoves_stream_spec (rawEval : String → Int) (fen : String)
    (legal : List String) :
    ((allMovesEvents rawEval fen legal).length = legal.length + 1) ∧
    (∀ j, j < legal.length →
      (allMovesEvents rawEval fen legal)[j]?
        = some (SseEvent.progressEv (((j + 1 : ℕ) : ℚ) / (legal.length : ℚ))
            ⟨legal.getD j "", -(rawEval (legal.getD j ""))⟩)) ∧
    (∀ i j : ℕ, i < j → j < legal.length →
      ((i + 1 : ℕ) : ℚ) / (legal.length : ℚ)
        < ((j + 1 : ℕ) : ℚ) / (legal.length : ℚ)) ∧
    (∀ j, j + 1 = legal.length →
      ((j + 1 : ℕ) : ℚ) / (legal.length : ℚ) = 1) ∧
    ((allMovesEvents rawEval fen legal)[legal.length]?
        = some (SseEvent.finalEv (allMovesFinal rawEval fen legal))) ∧
    ((allMovesFinal rawEval fen legal).moves.length = legal.length ∧
      (allMovesFinal rawEval fen legal).legalMoveCount = legal.length) ∧
    List.Pairwise (fun a b : AnnotatedRow => b.evalCp ≤ a.evalCp)
      (allMovesFinal rawEval fen legal).moves ∧
    (∀ r ∈ (allMovesFinal rawEval fen legal).moves,
      r.deltaCp = max 0 ((allMovesFinal rawEval fen legal).bestEvalCp - r.evalCp) ∧
      r.category = classify r.deltaCp ∧
      r.evalCp ≤ (allMovesFinal rawEval fen legal).bestEvalCp) ∧
    (0 < legal.length →
      ∃ r rs, (allMovesFinal rawEval fen legal).moves = r :: rs ∧
        r.deltaCp = 0) := by
  have hlooplen := allMovesLoop_snd_length rawEval legal.length legal 0
  have hmoveslen : (allMovesFinal rawEval fen legal).moves.length
      = legal.length := by
    rw [allMovesFinal]
    simp only [allMovesFinalRows, List.length_map]
    exact allMovesSorted_length rawEval legal
  refine ⟨?_, ?_, ?_, ?_, ?_, ⟨hmoveslen, hmoveslen⟩, ?_, ?_, ?_⟩
  · rw [allMovesEvents]
    simp [hlooplen]
  · intro j hj
    rw [allMovesEvents, List.getElem?_append_left (by rw [hlooplen]; exact hj),
      allMovesLoop_snd_get rawEval legal.length legal 0 j hj]
    rw [Nat.zero_add]
  · intro i j hij hj
    have hN : (0 : ℚ) < (legal.length : ℚ) := by
      have : 0 < legal.length := by omega
      exact_mod_cast this
    rw [div_lt_div_iff_of_pos_right hN]
    exact_mod_cast Nat.succ_lt_succ hij
  · intro j hj
    rw [hj]
    have hN : ((legal.length : ℕ) : ℚ) ≠ 0 := by
      have : 0 < legal.length := by omega
      exact_mod_cast Nat.pos_iff_ne_zero.mp this
    exact div_self hN
  · rw [allMovesEvents,
      List.getElem?_append_right (by rw [hlooplen]),
      hlooplen, Nat.sub_self]
    rfl
  · rw [allMovesFinal]
    simp only [allMovesFinalRows]
    refine List.Pairwise.map _ ?_ (allMovesSorted_pairwise rawEval legal)
    intro a b hab
    simpa using hab
  · intro r hr
    rw [allMovesFinal] at hr ⊢
    simp only [allMovesFinalRows, List.mem_map] at hr
    obtain ⟨r0, hr0, rfl⟩ := hr
    exact ⟨rfl, rfl, allMovesSorted_le_best rawEval legal r0 hr0⟩
  · intro hN
    have hlen : 0 < (allMovesSorted rawEval legal).length := by
      rw [allMovesSorted_length rawEval legal]
      exact hN
    obtain ⟨x, rs, hs⟩ := List.exists_cons_of_ne_nil
      (List.ne_nil_of_length_pos hlen)
    have hbest : allMovesBest rawEval legal = x.evalCp := by
      rw [allMovesBest, hs]
      rfl
    refine ⟨AnnotatedRow.mk x.uci x.evalCp
        (max 0 (allMovesBest rawEval legal - x.evalCp))
        (classify (max 0 (allMovesBest rawEval legal - x.evalCp))),
      rs.map (fun r => AnnotatedRow.mk r.uci r.evalCp
        (max 0 (allMovesBest rawEval legal - r.evalCp))
        (classify (max 0 (allMovesBest rawEval legal - r.evalCp)))), ?_, ?_⟩
    · rw [allMovesFinal]
      simp only [allMovesFinalRows]
      rw [hs, List.map_cons]
    · simp only [hbest]
      simp

/-- Concrete oracle for the all-moves witness. -/
def rawEvalW : String → Int := fun m => if m = "a" then 30 else -10

/-- Concrete witness for `allMoves_stream_spec`: a two-move position whose
final list's top entry has delta 0. -/
theorem allMoves_stream_spec_witness :
    (0 : ℕ) < (["a", "b"] : List String).length ∧
    (∃ r rs, (allMovesFinal rawEvalW "FEN" ["a", "b"]).moves = r :: rs ∧
      r.deltaCp = 0) :=
  ⟨by decide,
    (allMoves_stream_spec rawEvalW "FEN" ["a", "b"]).2.2.2.2.2.2.2.2 (by decide)⟩

end PawnForge
